import Mathlib

/-!
# swf-linter: a verification development

Shallow embedding of `main.go`: the linter lists the files changed between two
branches, keeps the `.sql` ones, and for every file that mentions
`workflow_config` extracts the single-quoted `{...}` literals and hands them to
the serverless-workflow parser; every failure becomes a `Result`.

Go strings are byte sequences, so a string is a list of byte values here.
The collaborators outside the program (the file system, the workflow parser,
the `git` process) are fields of `Env`; every call made to the file system or
the parser is recorded in a trace next to the results.
-/

namespace SwfLinter

/-! ## Go strings and the `strings` functions the program calls -/

/-- A Go string: an immutable sequence of bytes (each element is one byte value). -/
abbrev GoString := List Nat

/-- Bytes of an ASCII string literal of the source. -/
def ascii (s : String) : GoString := s.data.map Char.toNat

/-- Go `strings.HasPrefix`: `len(s) >= len(prefix) && s[:len(prefix)] == prefix`. -/
def stringsHasPrefix (s pre : GoString) : Bool :=
  decide (s.length ≥ pre.length) && s.take pre.length == pre

/-- Go `strings.HasSuffix`: `len(s) >= len(suffix) && s[len(s)-len(suffix):] == suffix`. -/
def stringsHasSuffix (s suffix : GoString) : Bool :=
  decide (s.length ≥ suffix.length) && s.drop (s.length - suffix.length) == suffix

/-- Go `strings.Index` scanning from offset `i`: the first offset at which
`substr` starts, or `-1`. -/
def indexFrom (substr : GoString) : GoString → Nat → Int
  | [], i => if substr = [] then (i : Int) else -1
  | c :: cs, i => if stringsHasPrefix (c :: cs) substr then (i : Int) else indexFrom substr cs (i + 1)

/-- Go `strings.Index`. -/
def stringsIndex (s substr : GoString) : Int := indexFrom substr s 0

/-- Go `strings.Contains`: `Index(s, substr) >= 0`. -/
def stringsContains (s substr : GoString) : Bool := decide (stringsIndex s substr ≥ 0)

/-- Go `strings.Split(s, sep)` for a one-byte separator: the pieces between the
separators, one more piece than there are separators. -/
def stringsSplit (sep : Nat) : GoString → List GoString
  | [] => [[]]
  | c :: cs =>
    if c = sep then [] :: stringsSplit sep cs
    else
      match stringsSplit sep cs with
      | [] => [[c]]
      | piece :: pieces => (c :: piece) :: pieces

/-! ## The part of Go `regexp` the program uses -/

/-- A one-byte class of a pattern: a literal byte, or the complement `[^b]`. -/
inductive Cls where
  | byte (b : Nat)
  | notByte (b : Nat)
  deriving DecidableEq, Repr

/-- Does the class accept the byte? -/
def Cls.test : Cls → Nat → Bool
  | .byte b, c => c == b
  | .notByte b, c => c != b

/-- One item of a pattern: a class, or a greedy star of a class. -/
inductive Item where
  | one (c : Cls)
  | star (c : Cls)
  deriving DecidableEq, Repr

/-- A pattern: a concatenation of items. -/
abbrev Regex := List Item

/-- Greedy star with backtracking: take as many bytes of the class as possible,
then give back one at a time until the continuation `k` matches. The number
returned is the length of what star and continuation consumed together. -/
def matchStar (c : Cls) (k : GoString → Option Nat) : GoString → Option Nat
  | [] => k []
  | b :: bs =>
    if c.test b then
      match matchStar c k bs with
      | some n => some (n + 1)
      | none => k (b :: bs)
    else k (b :: bs)

/-- The match of the pattern anchored at the head of the text that a
backtracking search finds first (Go's leftmost-first rule); the result is the
length of the match. -/
def matchHere : Regex → GoString → Option Nat
  | [], _ => some 0
  | .one c :: rest, text =>
    match text with
    | [] => none
    | b :: bs => if c.test b then (matchHere rest bs).map (· + 1) else none
  | .star c :: rest, text => matchStar c (matchHere rest) text

/-- The loop of Go `Regexp.FindAllString(s, -1)`: the leftmost match is
reported, the search resumes at its end (`pos = matches[1]`), so matches never
overlap. `skip` is the number of bytes still inside the last match. The
pattern of this program has no empty match, so Go's extra rule for empty
matches plays no part. -/
def findAllAux (re : Regex) : Nat → GoString → List GoString
  | _, [] => []
  | skip + 1, _ :: bs => findAllAux re skip bs
  | 0, b :: bs =>
    match matchHere re (b :: bs) with
    | some n => (b :: bs).take n :: findAllAux re (n - 1) bs
    | none => findAllAux re 0 bs

/-- Go `Regexp.FindAllString(s, -1)`. -/
def findAllString (re : Regex) (s : GoString) : List GoString := findAllAux re 0 s

/-- The byte `0x27`, a single quote. -/
def quote : Nat := 39

/-- The byte `0x7b`, an opening brace. -/
def lbrace : Nat := 123

/-- The byte `0x7d`, a closing brace. -/
def rbrace : Nat := 125

/-- The byte `0x0a`, a newline. -/
def newline : Nat := 10

/-- The pattern of `regexp.MustCompile`: quote, opening brace, `[^quote]*`,
closing brace, quote. Its literals are ASCII and a byte of a multi-byte or
invalid UTF-8 sequence is never ASCII, so matching byte by byte is the same as
Go's matching rune by rune. -/
def jsonRegex : Regex :=
  [.one (.byte quote), .one (.byte lbrace), .star (.notByte quote), .one (.byte rbrace),
   .one (.byte quote)]

/-! ## The program -/

/-- The `Result` struct. -/
structure Result where
  FileName : GoString
  JSONData : GoString
  Error : GoString
  deriving DecidableEq, Repr

/-- A call the program makes to a collaborator. -/
inductive Call where
  | readFile (path : GoString)
  | validate (jsonString : GoString)
  deriving DecidableEq, Repr

/-- The collaborators of the program. An error is represented by its message.
`os.ReadFile` has one field per call site, so that the second read of a file
may fail after the first one succeeded. -/
structure Env where
  /-- The call `os.ReadFile` in `isAffectingWorkflowConfig`. -/
  readFileDetector : GoString → Except GoString GoString
  /-- The call `os.ReadFile` in `extractJSON`. -/
  readFileExtractor : GoString → Except GoString GoString
  /-- The error of `parser.FromJSONSource`, `none` for a nil error. -/
  fromJSONSource : GoString → Option GoString
  /-- The output of `exec.Command("bash", "-c", cmd).Output()`. -/
  execOutput : GoString → Except GoString GoString

/-- The results collected so far and the calls made so far. -/
structure State where
  results : List Result
  calls : List Call
  deriving DecidableEq, Repr

/-- The function `filterSQLFiles`. -/
def filterSQLFiles (fileNames : List GoString) : List GoString :=
  fileNames.foldl
    (fun sqlFiles file => if stringsHasSuffix file (ascii ".sql") then sqlFiles ++ [file] else sqlFiles)
    []

/-- The function `isAffectingWorkflowConfig`, with the calls it makes. -/
def isAffectingWorkflowConfig (env : Env) (rootPath sqlFileName : GoString) :
    Except GoString Bool × List Call :=
  let path := rootPath ++ ascii "/" ++ sqlFileName
  (match env.readFileDetector path with
    | .error err => .error err
    | .ok content => .ok (stringsContains content (ascii "workflow_config")),
   [Call.readFile path])

/-- The body of `extractJSON` after the read: all matches, each without its
first and last byte (`jsonString[1 : len(jsonString)-1]`). -/
def extractFromContent (content : GoString) : List GoString :=
  (findAllString jsonRegex content).map (fun jsonString => (jsonString.take (jsonString.length - 1)).drop 1)

/-- The function `extractJSON`, with the calls it makes. -/
def extractJSON (env : Env) (rootPath filePath : GoString) :
    Except GoString (List GoString) × List Call :=
  let path := rootPath ++ ascii "/" ++ filePath
  (match env.readFileExtractor path with
    | .error err => .error err
    | .ok content => .ok (extractFromContent content),
   [Call.readFile path])

/-- The function `validateServerlessJSON`, with the calls it makes. -/
def validateServerlessJSON (env : Env) (jsonString : GoString) : Option GoString × List Call :=
  (env.fromJSONSource jsonString, [Call.validate jsonString])

/-- The body of the inner loop of `main`, over the extracted strings. -/
def validateStep (env : Env) (file : GoString) (st : State) (jsonString : GoString) : State :=
  match validateServerlessJSON env jsonString with
  | (some err, calls) =>
    { results := st.results ++ [{ FileName := file, JSONData := jsonString, Error := err }],
      calls := st.calls ++ calls }
  | (none, calls) => { st with calls := st.calls ++ calls }

/-- The body of the outer loop of `main`, over the SQL files. -/
def processFile (env : Env) (rootPath : GoString) (st : State) (file : GoString) : State :=
  match isAffectingWorkflowConfig env rootPath file with
  | (.error err, calls) =>
    { results := st.results ++ [{ FileName := file, JSONData := [], Error := err }],
      calls := st.calls ++ calls }
  | (.ok false, calls) => { st with calls := st.calls ++ calls }
  | (.ok true, calls) =>
    match extractJSON env rootPath file with
    | (.error err, calls2) =>
      { results := st.results ++ [{ FileName := file, JSONData := [], Error := err }],
        calls := st.calls ++ calls ++ calls2 }
    | (.ok jsonStrings, calls2) =>
      jsonStrings.foldl (validateStep env file) { st with calls := st.calls ++ calls ++ calls2 }

/-- The outer loop of `main`, started from the state `st`. -/
def loopFrom (env : Env) (rootPath : GoString) (st : State) (sqlFiles : List GoString) : State :=
  sqlFiles.foldl (processFile env rootPath) st

/-- The outer loop of `main`, started with `results := []Result{}`. -/
def mainLoop (env : Env) (rootPath : GoString) (sqlFiles : List GoString) : State :=
  loopFrom env rootPath { results := [], calls := [] } sqlFiles

/-- The command line of `getChangedFiles`:
`fmt.Sprintf("git -C %v diff --name-only %v...%v", rootPath, baseBranch, workingBranch)`. -/
def diffCommand (rootPath workingBranch baseBranch : GoString) : GoString :=
  ascii "git -C " ++ rootPath ++ ascii " diff --name-only " ++ baseBranch ++ ascii "..."
    ++ workingBranch

/-- The function `getChangedFiles`: the output of the `git` command split at
the newlines, or the error of the command. -/
def getChangedFiles (env : Env) (rootPath workingBranch baseBranch : GoString) :
    Except GoString (List GoString) :=
  match env.execOutput (diffCommand rootPath workingBranch baseBranch) with
  | .error err => .error err
  | .ok output => .ok (stringsSplit newline output)

/-- How a run of `main` ends. -/
inductive Outcome where
  /-- Fewer than four arguments: the usage text is printed. -/
  | usage
  /-- The call `panic(err)` after a failed `getChangedFiles`. -/
  | panic (err : GoString)
  /-- The loop is over; `st.results` is what `saveResults` is given. -/
  | saved (st : State)
  deriving DecidableEq, Repr

/-- The function `main`, on the arguments `os.Args`. -/
def main (env : Env) (osArgs : List GoString) : Outcome :=
  match osArgs with
  | _ :: rootPath :: workingBranch :: baseBranch :: _ =>
    match getChangedFiles env rootPath workingBranch baseBranch with
    | .error err => .panic err
    | .ok changedFiles => .saved (mainLoop env rootPath (filterSQLFiles changedFiles))
  | _ => .usage

/-! ## The words of the specification -/

/-- A payload in the words of the specification: it begins with an opening
brace, ends with a closing brace and has no single quote. -/
def IsPayload (s : GoString) : Prop :=
  s.head? = some lbrace ∧ s.getLast? = some rbrace ∧ quote ∉ s

instance instDecidableIsPayload (s : GoString) : Decidable (IsPayload s) := by
  unfold IsPayload
  exact inferInstance

/-- A payload between single quotes. -/
def quoted (s : GoString) : GoString := quote :: s ++ [quote]

/-- The text `'j1' ++ s1 ++ ... ++ 'jn' ++ sn` of the specification, from the
pairs `(ji, si)` of a payload and the separator after it. -/
def quotedSeq : List (GoString × GoString) → GoString
  | [] => []
  | (j, s) :: parts => quote :: (j ++ quote :: (s ++ quotedSeq parts))

/-- The specification's variant of `getChangedFiles`, which removes the empty
path entries from the split. -/
def changedFilesWithoutEmpty (output : GoString) : List GoString :=
  (stringsSplit newline output).filter (fun path => path != [])

/-! ## Concrete collaborators, for the examples -/

/-- A file system in which every read gives `content`, a parser that rejects
everything with the message `invalid`, and a `git` that prints `output`. -/
def fixedEnv (content output : GoString) : Env where
  readFileDetector := fun _ => .ok content
  readFileExtractor := fun _ => .ok content
  fromJSONSource := fun _ => some (ascii "invalid")
  execOutput := fun _ => .ok output

/-- The migration `UPDATE workflow_config SET c = '{"x":}' WHERE name = 'a';`:
it mentions `workflow_config` and holds the one payload `{"x":}` and a second
string literal, which is no payload. -/
def exampleContent : GoString :=
  ascii "UPDATE workflow_config SET c = \x27\x7b\x22x\x22:\x7d\x27 WHERE name = \x27a\x27;"

/-- The output of `git diff --name-only` for the changed files `m.sql` and
`notes.txt`. -/
def exampleOutput : GoString := ascii "m.sql\nnotes.txt\n"

/-- A file system in which the read of the detector fails with `no such file`. -/
def detectorFailsEnv : Env where
  readFileDetector := fun _ => .error (ascii "no such file")
  readFileExtractor := fun _ => .ok []
  fromJSONSource := fun _ => none
  execOutput := fun _ => .ok []

/-- A file system in which the detector reads `content` and the read of the
extractor then fails with `permission denied`. -/
def extractorFailsEnv (content : GoString) : Env where
  readFileDetector := fun _ => .ok content
  readFileExtractor := fun _ => .error (ascii "permission denied")
  fromJSONSource := fun _ => none
  execOutput := fun _ => .ok []


theorem stringsHasPrefix_iff (s pre : GoString) : stringsHasPrefix s pre = true ↔ pre <+: s := by
  unfold stringsHasPrefix
  simp only [Bool.and_eq_true, decide_eq_true_eq, beq_iff_eq]
  constructor
  · rintro ⟨_, h⟩
    rw [← h]
    exact List.take_prefix _ _
  · rintro ⟨t, rfl⟩
    simp

theorem stringsHasSuffix_iff (s suffix : GoString) :
    stringsHasSuffix s suffix = true ↔ suffix <:+ s := by
  unfold stringsHasSuffix
  simp only [Bool.and_eq_true, decide_eq_true_eq, beq_iff_eq]
  constructor
  · rintro ⟨_, h⟩
    rw [← h]
    exact List.drop_suffix _ _
  · rintro ⟨t, rfl⟩
    simp

theorem indexFrom_nonneg_iff (substr : GoString) :
    ∀ (s : GoString) (i : Nat), 0 ≤ indexFrom substr s i ↔ substr <:+: s := by
  intro s
  induction s with
  | nil =>
    intro i
    by_cases h : substr = []
    · simp [indexFrom, h]
    · simp [indexFrom, h]
  | cons c cs ih =>
    intro i
    unfold indexFrom
    by_cases h : stringsHasPrefix (c :: cs) substr = true
    · rw [if_pos h]
      have hp := (stringsHasPrefix_iff _ _).1 h
      simp [hp.isInfix]
    · rw [if_neg h, ih, List.infix_cons_iff]
      have hp : ¬ substr <+: c :: cs := fun hp => h ((stringsHasPrefix_iff _ _).2 hp)
      simp [hp]

theorem stringsContains_iff (s substr : GoString) :
    stringsContains s substr = true ↔ substr <:+: s := by
  unfold stringsContains stringsIndex
  simp only [decide_eq_true_eq, ge_iff_le]
  exact indexFrom_nonneg_iff substr s 0

theorem filterSQLFiles_foldl (fileNames : List GoString) :
    ∀ acc : List GoString,
      fileNames.foldl
        (fun sqlFiles file =>
          if stringsHasSuffix file (ascii ".sql") then sqlFiles ++ [file] else sqlFiles) acc
        = acc ++ fileNames.filter (fun file => stringsHasSuffix file (ascii ".sql")) := by
  induction fileNames with
  | nil => intro acc; simp
  | cons f fs ih =>
    intro acc
    rw [List.foldl_cons, ih]
    by_cases h : stringsHasSuffix f (ascii ".sql") = true
    · simp [h]
    · simp [h]

theorem filterSQLFiles_eq_filter (fileNames : List GoString) :
    filterSQLFiles fileNames
      = fileNames.filter (fun file => stringsHasSuffix file (ascii ".sql")) := by
  unfold filterSQLFiles
  rw [filterSQLFiles_foldl]
  rfl

/-- C1. `filterSQLFiles` returns exactly the sublist of the paths that end with
the literal bytes `.sql`: it is the input filtered by that suffix test, hence a
sublist in the original order, every path occurs as often as in the input when
it has the suffix and not at all otherwise, and the suffix is the four bytes
`2e 73 71 6c` compared without case folding (`x.SQL` is dropped). -/
theorem filterSQLFiles_exact (fileNames : List GoString) :
    filterSQLFiles fileNames = fileNames.filter (fun p => decide (ascii ".sql" <:+ p))
    ∧ List.Sublist (filterSQLFiles fileNames) fileNames
    ∧ (∀ p, p ∈ filterSQLFiles fileNames ↔ p ∈ fileNames ∧ ∃ stem, p = stem ++ ascii ".sql")
    ∧ (∀ p, (filterSQLFiles fileNames).count p
        = if ascii ".sql" <:+ p then fileNames.count p else 0)
    ∧ ascii ".sql" = [46, 115, 113, 108]
    ∧ filterSQLFiles [ascii "x.SQL", ascii "x.sql"] = [ascii "x.sql"] := by
  have h : filterSQLFiles fileNames = fileNames.filter (fun p => decide (ascii ".sql" <:+ p)) := by
    rw [filterSQLFiles_eq_filter]
    apply List.filter_congr
    intro p _
    rw [Bool.eq_iff_iff, stringsHasSuffix_iff]
    simp
  refine ⟨h, ?_, ?_, ?_, rfl, by decide⟩
  · rw [h]; exact List.filter_sublist _
  · intro p
    rw [h, List.mem_filter, decide_eq_true_eq]
    constructor
    · rintro ⟨hp, t, ht⟩
      exact ⟨hp, t, ht.symm⟩
    · rintro ⟨hp, t, ht⟩
      exact ⟨hp, t, ht.symm⟩
  · intro p
    rw [h]
    by_cases hp : ascii ".sql" <:+ p
    · rw [if_pos hp, List.count_filter (by simpa using hp)]
    · rw [if_neg hp, List.count_eq_zero, List.mem_filter]
      simp [hp]


/-! ### The pattern -/

theorem matchTail_eq_some (t : GoString) (n : Nat)
    (h : matchHere [.one (.byte rbrace), .one (.byte quote)] t = some n) :
    n = 2 ∧ ∃ rest, t = rbrace :: quote :: rest := by
  match t with
  | [] => simp [matchHere] at h
  | [b] =>
    by_cases hb : b = rbrace
    · simp [matchHere, Cls.test, hb] at h
    · simp [matchHere, Cls.test, hb] at h
  | b :: b2 :: rest =>
    by_cases hb : b = rbrace
    · by_cases hb2 : b2 = quote
      · subst hb; subst hb2
        simp [matchHere, Cls.test] at h
        exact ⟨h.symm, rest, rfl⟩
      · simp [matchHere, Cls.test, hb, hb2] at h
    · simp [matchHere, Cls.test, hb] at h

theorem matchTail_hit (rest : GoString) :
    matchHere [.one (.byte rbrace), .one (.byte quote)] (rbrace :: quote :: rest) = some 2 := by
  simp [matchHere, Cls.test]

theorem matchTail_quote (rest : GoString) :
    matchHere [.one (.byte rbrace), .one (.byte quote)] (quote :: rest) = none := by
  simp [matchHere, Cls.test, quote, rbrace]

theorem matchStar_sound :
    ∀ (u : GoString) (m : Nat),
      matchStar (.notByte quote) (matchHere [.one (.byte rbrace), .one (.byte quote)]) u = some m →
      ∃ body rest, u = body ++ rbrace :: quote :: rest ∧ quote ∉ body ∧ m = body.length + 2 := by
  intro u
  induction u with
  | nil =>
    intro m h
    simp [matchStar, matchHere] at h
  | cons b bs ih =>
    intro m h
    unfold matchStar at h
    by_cases hb : b = quote
    · subst hb
      simp [Cls.test, matchTail_quote] at h
    · have ht : (Cls.notByte quote).test b = true := by simp [Cls.test, hb]
      rw [if_pos ht] at h
      cases hrec : matchStar (.notByte quote)
          (matchHere [.one (.byte rbrace), .one (.byte quote)]) bs with
      | some n =>
        rw [hrec] at h
        obtain ⟨body, rest, hbs, hq, hn⟩ := ih n hrec
        refine ⟨b :: body, rest, by simp [hbs], ?_, ?_⟩
        · simp [hq, Ne.symm hb]
        · simp only [Option.some.injEq] at h
          simp [← h, hn]
      | none =>
        rw [hrec] at h
        obtain ⟨hm, rest, hrest⟩ := matchTail_eq_some _ _ h
        exact ⟨[], rest, by simpa using hrest, by simp, by simpa using hm⟩

theorem matchStar_complete (rest : GoString) :
    ∀ body : GoString, quote ∉ body →
      matchStar (.notByte quote) (matchHere [.one (.byte rbrace), .one (.byte quote)])
        (body ++ rbrace :: quote :: rest) = some (body.length + 2) := by
  intro body
  induction body with
  | nil =>
    intro _
    have h1 : (Cls.notByte quote).test rbrace = true := by decide
    have h2 : (Cls.notByte quote).test quote = false := by decide
    simp [matchStar, h1, h2, matchTail_quote, matchTail_hit]
  | cons b bs ih =>
    intro hq
    have hb : b ≠ quote := fun h => hq (by simp [h])
    have hbs : quote ∉ bs := fun h => hq (by simp [h])
    have ht : (Cls.notByte quote).test b = true := by simp [Cls.test, hb]
    simp [matchStar, ht, ih hbs]

theorem isPayload_iff (s : GoString) :
    IsPayload s ↔ ∃ body, s = lbrace :: (body ++ [rbrace]) ∧ quote ∉ body := by
  constructor
  · rintro ⟨hh, hl, hq⟩
    match s, hh, hl, hq with
    | [b], hh, hl, _ =>
      simp only [List.head?_cons, List.getLast?_singleton, Option.some.injEq] at hh hl
      rw [hh] at hl
      exact absurd hl (by decide)
    | b :: c :: t, hh, hl, hq =>
      simp only [List.head?_cons, Option.some.injEq] at hh
      subst hh
      rw [List.getLast?_cons_cons, List.getLast?_eq_getLast _ (List.cons_ne_nil c t)] at hl
      simp only [Option.some.injEq] at hl
      have hbody : c :: t = (c :: t).dropLast ++ [rbrace] := by
        rw [← hl]
        exact (List.dropLast_append_getLast (List.cons_ne_nil c t)).symm
      refine ⟨(c :: t).dropLast, by rw [← hbody], ?_⟩
      intro hm
      apply hq
      rw [hbody]
      simp [hm]
  · rintro ⟨body, rfl, hq⟩
    refine ⟨rfl, ?_, ?_⟩
    · rw [← List.cons_append, List.getLast?_concat]
    · have h1 : quote ≠ lbrace := by decide
      have h2 : quote ≠ rbrace := by decide
      simp [hq, h1, h2]

theorem matchHere_jsonRegex_unfold (u : GoString) :
    matchHere jsonRegex (quote :: lbrace :: u)
      = ((matchStar (.notByte quote) (matchHere [.one (.byte rbrace), .one (.byte quote)]) u).map
          (· + 1)).map (· + 1) := rfl

theorem matchHere_jsonRegex_sound (t : GoString) (n : Nat) (h : matchHere jsonRegex t = some n) :
    ∃ s rest, t = quote :: (s ++ quote :: rest) ∧ IsPayload s ∧ n = s.length + 2 := by
  match t with
  | [] => simp [jsonRegex, matchHere] at h
  | [b] =>
    by_cases hb : b = quote
    · simp [jsonRegex, matchHere, Cls.test, hb] at h
    · simp [jsonRegex, matchHere, Cls.test, hb] at h
  | b :: b2 :: u =>
    by_cases hb : b = quote
    · by_cases hb2 : b2 = lbrace
      · subst hb; subst hb2
        rw [matchHere_jsonRegex_unfold] at h
        simp only [Option.map_map, Option.map_eq_some', Function.comp_apply] at h
        obtain ⟨m, hm, hmn⟩ := h
        obtain ⟨body, rest, hu, hq, hlen⟩ := matchStar_sound u m hm
        refine ⟨lbrace :: (body ++ [rbrace]), rest, by simp [hu],
          (isPayload_iff _).2 ⟨body, rfl, hq⟩, ?_⟩
        simp [← hmn, hlen]
      · simp [jsonRegex, matchHere, Cls.test, hb, hb2] at h
    · simp [jsonRegex, matchHere, Cls.test, hb] at h

theorem matchHere_jsonRegex_complete (s rest : GoString) (hs : IsPayload s) :
    matchHere jsonRegex (quote :: (s ++ quote :: rest)) = some (s.length + 2) := by
  obtain ⟨body, rfl, hq⟩ := (isPayload_iff s).1 hs
  have h := matchStar_complete rest body hq
  have e : quote :: (lbrace :: (body ++ [rbrace]) ++ quote :: rest)
      = quote :: lbrace :: (body ++ rbrace :: quote :: rest) := by simp
  rw [e, matchHere_jsonRegex_unfold, h]
  simp

theorem matchHere_jsonRegex_head (b : Nat) (bs : GoString) (hb : b ≠ quote) :
    matchHere jsonRegex (b :: bs) = none := by
  simp [jsonRegex, matchHere, Cls.test, hb]


/-! ### The scan -/

theorem findAllAux_skip (re : Regex) :
    ∀ (t : GoString) (k : Nat), findAllAux re k t = findAllAux re 0 (t.drop k) := by
  intro t
  induction t with
  | nil => intro k; simp [findAllAux]
  | cons b bs ih =>
    intro k
    cases k with
    | zero => rfl
    | succ k =>
      rw [List.drop_succ_cons, ← ih k]
      rfl

theorem extractFromContent_nil : extractFromContent [] = [] := rfl

theorem extractFromContent_miss (b : Nat) (bs : GoString)
    (h : matchHere jsonRegex (b :: bs) = none) :
    extractFromContent (b :: bs) = extractFromContent bs := by
  simp [extractFromContent, findAllString, findAllAux, h]

theorem extractFromContent_hit (s rest : GoString) (hs : IsPayload s) :
    extractFromContent (quote :: (s ++ quote :: rest)) = s :: extractFromContent rest := by
  have hm := matchHere_jsonRegex_complete s rest hs
  have hskip := findAllAux_skip jsonRegex (s ++ quote :: rest) (s.length + 1)
  have hdrop : (s ++ quote :: rest).drop (s.length + 1) = rest := by
    rw [List.drop_append_eq_append_drop]
    simp
  have htake : (quote :: (s ++ quote :: rest)).take (s.length + 2) = quote :: (s ++ [quote]) := by
    rw [show s.length + 2 = (s.length + 1) + 1 from rfl, List.take_succ_cons,
      List.take_append_eq_append_take]
    simp
  unfold extractFromContent findAllString
  rw [findAllAux, hm]
  simp only [List.map_cons, Nat.add_one_sub_one, List.cons.injEq]
  rw [htake, hskip, hdrop]
  refine ⟨?_, rfl⟩
  simp

theorem extractFromContent_skip (r : GoString) :
    ∀ s0 : GoString, quote ∉ s0 → extractFromContent (s0 ++ r) = extractFromContent r := by
  intro s0
  induction s0 with
  | nil => intro _; rfl
  | cons b bs ih =>
    intro hq
    have hb : b ≠ quote := fun h => hq (by simp [h])
    have hbs : quote ∉ bs := fun h => hq (by simp [h])
    rw [List.cons_append, extractFromContent_miss b _ (matchHere_jsonRegex_head b _ hb), ih hbs]

/-- Every string the scan returns is a payload that stands between quotes in the text. -/
theorem extractFromContent_sound :
    ∀ (n : Nat) (t : GoString), t.length ≤ n →
      ∀ s ∈ extractFromContent t, IsPayload s ∧ quoted s <:+: t := by
  intro n
  induction n with
  | zero =>
    intro t ht s hs
    have : t = [] := List.length_eq_zero.1 (Nat.le_zero.1 ht)
    subst this
    simp [extractFromContent_nil] at hs
  | succ n ih =>
    intro t ht s hs
    match t with
    | [] => simp [extractFromContent_nil] at hs
    | b :: bs =>
      cases hm : matchHere jsonRegex (b :: bs) with
      | none =>
        rw [extractFromContent_miss b bs hm] at hs
        have hlen : bs.length ≤ n := by simpa using ht
        obtain ⟨hp, hi⟩ := ih bs hlen s hs
        exact ⟨hp, hi.trans (List.suffix_cons b bs).isInfix⟩
      | some k =>
        obtain ⟨s1, rest, ht1, hp1, _⟩ := matchHere_jsonRegex_sound _ _ hm
        rw [ht1, extractFromContent_hit s1 rest hp1, List.mem_cons] at hs
        rcases hs with rfl | hs
        · refine ⟨hp1, ?_⟩
          rw [ht1]
          exact ⟨[], rest, by simp [quoted]⟩
        · have hlen : rest.length ≤ n := by
            have := congrArg List.length ht1
            simp at this ht
            omega
          obtain ⟨hp, hi⟩ := ih rest hlen s hs
          refine ⟨hp, hi.trans ?_⟩
          rw [ht1]
          exact (List.suffix_append (quote :: (s1 ++ [quote])) rest |>.isInfix).trans
            (by simp)


theorem extractFromContent_quotedSeq :
    ∀ parts : List (GoString × GoString), (∀ p ∈ parts, IsPayload p.1 ∧ quote ∉ p.2) →
      extractFromContent (quotedSeq parts) = parts.map Prod.fst := by
  intro parts
  induction parts with
  | nil => intro _; rfl
  | cons p ps ih =>
    intro h
    obtain ⟨j, s⟩ := p
    have hj := h (j, s) (by simp)
    have hps : ∀ p ∈ ps, IsPayload p.1 ∧ quote ∉ p.2 := fun p hp => h p (by simp [hp])
    rw [quotedSeq, extractFromContent_hit j _ hj.1, extractFromContent_skip _ s hj.2, ih hps]
    rfl

theorem matchHere_jsonRegex_append (t more : GoString) (n : Nat)
    (h : matchHere jsonRegex t = some n) : matchHere jsonRegex (t ++ more) = some n := by
  obtain ⟨s, rest, ht, hs, hn⟩ := matchHere_jsonRegex_sound t n h
  have e : t ++ more = quote :: (s ++ quote :: (rest ++ more)) := by
    rw [ht]
    simp
  rw [e, hn]
  exact matchHere_jsonRegex_complete s (rest ++ more) hs

theorem matchHere_jsonRegex_none_of_append (t more : GoString)
    (h : matchHere jsonRegex (t ++ more) = none) : matchHere jsonRegex t = none := by
  cases ht : matchHere jsonRegex t with
  | none => rfl
  | some n =>
    rw [matchHere_jsonRegex_append t more n ht] at h
    exact absurd h (by simp)

/-- The scan at a quoted payload of the text: either the scan arrives at its
opening quote and matches it, or that quote closes a match the scan reports. -/
theorem extractFromContent_occurrence :
    ∀ (n : Nat) (pre : GoString), pre.length ≤ n → ∀ (s post : GoString), IsPayload s →
      extractFromContent (pre ++ quote :: (s ++ quote :: post))
        = extractFromContent pre ++ s :: extractFromContent post ∨
      ∃ pre1 s1, pre = pre1 ++ quote :: s1 ∧ IsPayload s1 ∧
        extractFromContent (pre ++ quote :: (s ++ quote :: post))
          = extractFromContent pre1 ++ s1 :: extractFromContent (s ++ quote :: post) := by
  intro n
  induction n with
  | zero =>
    intro pre hpre s post hs
    have : pre = [] := List.length_eq_zero.1 (Nat.le_zero.1 hpre)
    subst this
    left
    rw [List.nil_append, extractFromContent_hit s post hs, extractFromContent_nil]
    rfl
  | succ n ih =>
    intro pre hpre s post hs
    match pre with
    | [] =>
      left
      rw [List.nil_append, extractFromContent_hit s post hs, extractFromContent_nil]
      rfl
    | b :: pre2 =>
      have hlen : pre2.length ≤ n := by simpa using hpre
      rw [List.cons_append]
      cases hm : matchHere jsonRegex (b :: (pre2 ++ quote :: (s ++ quote :: post))) with
      | none =>
        rw [extractFromContent_miss b _ hm]
        rcases ih pre2 hlen s post hs with h | ⟨pre1, s1, hp, hs1, h⟩
        · left
          have hnone : matchHere jsonRegex (b :: pre2) = none :=
            matchHere_jsonRegex_none_of_append (b :: pre2) _ hm
          rw [extractFromContent_miss b pre2 hnone]
          exact h
        · right
          refine ⟨b :: pre1, s1, by simp [hp], hs1, ?_⟩
          have hnone : matchHere jsonRegex (b :: pre1) = none := by
            apply matchHere_jsonRegex_none_of_append (b :: pre1)
              (quote :: s1 ++ quote :: (s ++ quote :: post))
            rw [← hm, hp]
            simp
          rw [extractFromContent_miss b pre1 hnone]
          exact h
      | some k =>
        obtain ⟨s1, rest, ht, hs1, _⟩ := matchHere_jsonRegex_sound _ _ hm
        have hq1 : quote ∉ s1 := hs1.2.2
        simp only [List.cons.injEq] at ht
        obtain ⟨hb, ht⟩ := ht
        subst hb
        rw [ht, extractFromContent_hit s1 rest hs1]
        have hshared : ∀ (e1 : s1 = pre2) (e2 : rest = s ++ quote :: post),
            ∃ pre1 s2, quote :: pre2 = pre1 ++ quote :: s2 ∧ IsPayload s2 ∧
              s1 :: extractFromContent rest
                = extractFromContent pre1 ++ s2 :: extractFromContent (s ++ quote :: post) := by
          intro e1 e2
          refine ⟨[], s1, by simp [e1], hs1, ?_⟩
          rw [e2, extractFromContent_nil]
          rfl
        rcases List.append_eq_append_iff.1 ht with ⟨a, hs1a, ha⟩ | ⟨c, hpre2, hc⟩
        · match a, hs1a, ha with
          | [], hs1a, ha =>
            right
            exact hshared (by simpa using hs1a) (by simpa using ha.symm)
          | x :: a2, hs1a, ha =>
            exfalso
            simp only [List.cons_append, List.cons.injEq] at ha
            apply hq1
            rw [hs1a, ← ha.1]
            simp
        · match c, hpre2, hc with
          | [], hpre2, hc =>
            right
            exact hshared (by simpa using hpre2.symm) (by simpa using hc)
          | x :: c2, hpre2, hc =>
            simp only [List.cons_append, List.cons.injEq] at hc
            obtain ⟨hx, hrest⟩ := hc
            subst hx
            have hlen2 : c2.length ≤ n := by
              have := congrArg List.length hpre2
              simp at this
              omega
            have hpre : extractFromContent (quote :: pre2) = s1 :: extractFromContent c2 := by
              rw [hpre2]
              exact extractFromContent_hit s1 c2 hs1
            rw [hrest]
            rcases ih c2 hlen2 s post hs with h | ⟨p1, s2, hp, hs2, h⟩
            · left
              rw [h, hpre]
              rfl
            · right
              refine ⟨quote :: (s1 ++ quote :: p1), s2, ?_, hs2, ?_⟩
              · rw [hpre2, hp]
                simp
              · rw [h, extractFromContent_hit s1 p1 hs1]
                rfl

/-- A text with exactly one quoted payload gives exactly that payload. -/
theorem extractFromContent_unique (pre j post : GoString) (hj : IsPayload j)
    (huniq : ∀ pre2 j2 post2 : GoString,
      pre ++ quoted j ++ post = pre2 ++ quoted j2 ++ post2 → IsPayload j2 → pre2 = pre) :
    extractFromContent (pre ++ quoted j ++ post) = [j] := by
  have e : pre ++ quoted j ++ post = pre ++ quote :: (j ++ quote :: post) := by
    simp [quoted]
  rcases extractFromContent_occurrence pre.length pre (Nat.le_refl _) j post hj with
    h | ⟨pre1, s1, hp, hs1, _⟩
  · have h1 : extractFromContent pre = [] := by
      apply List.eq_nil_iff_forall_not_mem.2
      intro s hs
      obtain ⟨hsp, a, b, hab⟩ := extractFromContent_sound pre.length pre (Nat.le_refl _) s hs
      have := huniq a s (b ++ quoted j ++ post) (by rw [← hab]; simp) hsp
      have hl := congrArg List.length hab
      rw [this] at hl
      simp [quoted] at hl
    have h2 : extractFromContent post = [] := by
      apply List.eq_nil_iff_forall_not_mem.2
      intro s hs
      obtain ⟨hsp, a, b, hab⟩ := extractFromContent_sound post.length post (Nat.le_refl _) s hs
      have := huniq (pre ++ quoted j ++ a) s b (by rw [← hab]; simp) hsp
      have hl := congrArg List.length this
      simp [quoted] at hl
    rw [e, h, h1, h2]
    rfl
  · exfalso
    have := huniq pre1 s1 (j ++ quote :: post) (by rw [hp]; simp [quoted]) hs1
    have hl := congrArg List.length hp
    rw [this] at hl
    simp at hl

theorem filterMap_eq_nil_of_none {α β : Type} (f : α → Option β) :
    ∀ l : List α, (∀ x ∈ l, f x = none) → l.filterMap f = [] := by
  intro l
  induction l with
  | nil => intro _; rfl
  | cons x xs ih =>
    intro h
    rw [List.filterMap_cons, h x (by simp)]
    exact ih (fun y hy => h y (by simp [hy]))

/-! ### The loops of `main` -/

theorem validate_foldl (env : Env) (file : GoString) :
    ∀ (jsonStrings : List GoString) (st : State),
      jsonStrings.foldl (validateStep env file) st
        = { results := st.results ++ jsonStrings.filterMap (fun j =>
              (env.fromJSONSource j).map
                (fun err => { FileName := file, JSONData := j, Error := err })),
            calls := st.calls ++ jsonStrings.map Call.validate } := by
  intro jsonStrings
  induction jsonStrings with
  | nil => intro st; simp
  | cons j js ih =>
    intro st
    rw [List.foldl_cons, ih]
    cases h : env.fromJSONSource j with
    | none => simp [validateStep, validateServerlessJSON, h]
    | some err => simp [validateStep, validateServerlessJSON, h]

/-- The results and calls of one file, processed alone. -/
theorem processFile_eq (env : Env) (rootPath : GoString) (st : State) (file : GoString) :
    processFile env rootPath st file
      = { results := st.results ++ (mainLoop env rootPath [file]).results,
          calls := st.calls ++ (mainLoop env rootPath [file]).calls } := by
  simp only [mainLoop, loopFrom, List.foldl_cons, List.foldl_nil, processFile,
    isAffectingWorkflowConfig, extractJSON]
  cases env.readFileDetector (rootPath ++ ascii "/" ++ file) with
  | error e => simp
  | ok content =>
    cases hc : stringsContains content (ascii "workflow_config") with
    | false => simp [hc]
    | true =>
      cases env.readFileExtractor (rootPath ++ ascii "/" ++ file) with
      | error e => simp [hc]
      | ok content2 => simp [hc, validate_foldl]

theorem loopFrom_eq (env : Env) (rootPath : GoString) :
    ∀ (sqlFiles : List GoString) (st : State),
      loopFrom env rootPath st sqlFiles
        = { results := st.results
              ++ sqlFiles.flatMap (fun f => (mainLoop env rootPath [f]).results),
            calls := st.calls
              ++ sqlFiles.flatMap (fun f => (mainLoop env rootPath [f]).calls) } := by
  intro sqlFiles
  induction sqlFiles with
  | nil => intro st; simp [loopFrom]
  | cons f fs ih =>
    intro st
    have h : loopFrom env rootPath st (f :: fs)
        = loopFrom env rootPath (processFile env rootPath st f) fs := rfl
    rw [h, ih, processFile_eq]
    simp

theorem mainLoop_results (env : Env) (rootPath : GoString) (sqlFiles : List GoString) :
    (mainLoop env rootPath sqlFiles).results
      = sqlFiles.flatMap (fun f => (mainLoop env rootPath [f]).results) := by
  rw [mainLoop, loopFrom_eq]
  simp

theorem mainLoop_calls (env : Env) (rootPath : GoString) (sqlFiles : List GoString) :
    (mainLoop env rootPath sqlFiles).calls
      = sqlFiles.flatMap (fun f => (mainLoop env rootPath [f]).calls) := by
  rw [mainLoop, loopFrom_eq]
  simp

/-- What one file contributes, by the outcome of its two reads. -/
theorem mainLoop_single (env : Env) (rootPath file : GoString) :
    mainLoop env rootPath [file]
      = match (isAffectingWorkflowConfig env rootPath file).1 with
        | .error err =>
          { results := [{ FileName := file, JSONData := [], Error := err }],
            calls := [Call.readFile (rootPath ++ ascii "/" ++ file)] }
        | .ok false =>
          { results := [], calls := [Call.readFile (rootPath ++ ascii "/" ++ file)] }
        | .ok true =>
          match (extractJSON env rootPath file).1 with
          | .error err =>
            { results := [{ FileName := file, JSONData := [], Error := err }],
              calls := [Call.readFile (rootPath ++ ascii "/" ++ file),
                Call.readFile (rootPath ++ ascii "/" ++ file)] }
          | .ok jsonStrings =>
            { results := jsonStrings.filterMap (fun j =>
                (env.fromJSONSource j).map
                  (fun err => { FileName := file, JSONData := j, Error := err })),
              calls := [Call.readFile (rootPath ++ ascii "/" ++ file),
                Call.readFile (rootPath ++ ascii "/" ++ file)]
                ++ jsonStrings.map Call.validate } := by
  simp only [mainLoop, loopFrom, List.foldl_cons, List.foldl_nil, processFile,
    isAffectingWorkflowConfig, extractJSON]
  cases env.readFileDetector (rootPath ++ ascii "/" ++ file) with
  | error e => simp
  | ok content =>
    cases hc : stringsContains content (ascii "workflow_config") with
    | false => simp [hc]
    | true =>
      cases env.readFileExtractor (rootPath ++ ascii "/" ++ file) with
      | error e => simp [hc]
      | ok content2 => simp [hc, validate_foldl]


/-! ### The split of the `git` output -/

theorem stringsSplit_ne_nil (sep : Nat) : ∀ s : GoString, stringsSplit sep s ≠ [] := by
  intro s
  induction s with
  | nil => simp [stringsSplit]
  | cons c cs ih =>
    unfold stringsSplit
    by_cases h : c = sep
    · simp [h]
    · rw [if_neg h]
      cases hs : stringsSplit sep cs with
      | nil => exact absurd hs ih
      | cons p ps => simp

theorem stringsSplit_line (sep : Nat) (rest : GoString) :
    ∀ a : GoString, sep ∉ a → stringsSplit sep (a ++ sep :: rest) = a :: stringsSplit sep rest := by
  intro a
  induction a with
  | nil => intro _; simp [stringsSplit]
  | cons c cs ih =>
    intro h
    have hc : c ≠ sep := fun e => h (by simp [e])
    have hcs : sep ∉ cs := fun e => h (by simp [e])
    rw [List.cons_append, stringsSplit, if_neg hc, ih hcs]

theorem stringsSplit_append_sep (sep : Nat) :
    ∀ s : GoString, stringsSplit sep (s ++ [sep]) = stringsSplit sep s ++ [[]] := by
  intro s
  induction s with
  | nil => simp [stringsSplit]
  | cons c cs ih =>
    rw [List.cons_append, stringsSplit, stringsSplit, ih]
    by_cases h : c = sep
    · simp [h]
    · rw [if_neg h, if_neg h]
      cases hs : stringsSplit sep cs with
      | nil => exact absurd hs (stringsSplit_ne_nil sep cs)
      | cons p ps => simp

/-! ## The claims -/

/-- C8. On a successful read the impact detector returns a boolean that is
true if and only if the bytes of `workflow_config` occur consecutively
somewhere in the content; the bytes are compared as they are, so a content
`Workflow_Config` is not flagged. -/
theorem isAffectingWorkflowConfig_iff_occurs (env : Env) (rootPath sqlFileName content : GoString)
    (hread : env.readFileDetector (rootPath ++ ascii "/" ++ sqlFileName) = .ok content) :
    ∃ b : Bool, (isAffectingWorkflowConfig env rootPath sqlFileName).1 = .ok b ∧
      (b = true ↔ ∃ pre post, content = pre ++ ascii "workflow_config" ++ post) ∧
      ascii "workflow_config"
        = [119, 111, 114, 107, 102, 108, 111, 119, 95, 99, 111, 110, 102, 105, 103] ∧
      (isAffectingWorkflowConfig (fixedEnv (ascii "Workflow_Config") []) rootPath sqlFileName).1
        = .ok false := by
  refine ⟨stringsContains content (ascii "workflow_config"), ?_, ?_, by decide, rfl⟩
  · simp only [isAffectingWorkflowConfig, hread]
  · rw [stringsContains_iff]
    constructor
    · rintro ⟨pre, post, h⟩
      exact ⟨pre, post, h.symm⟩
    · rintro ⟨pre, post, h⟩
      exact ⟨pre, post, h.symm⟩

/-- Witness of C8: a file that reads `UPDATE workflow_config SET x = 1;`. -/
theorem isAffectingWorkflowConfig_iff_occurs_witness :
    (fixedEnv (ascii "UPDATE workflow_config SET x = 1;") []).readFileDetector
        (ascii "repo" ++ ascii "/" ++ ascii "m.sql")
      = .ok (ascii "UPDATE workflow_config SET x = 1;") ∧
    ∃ b : Bool,
      (isAffectingWorkflowConfig (fixedEnv (ascii "UPDATE workflow_config SET x = 1;") [])
        (ascii "repo") (ascii "m.sql")).1 = .ok b ∧
      (b = true ↔ ∃ pre post,
        ascii "UPDATE workflow_config SET x = 1;" = pre ++ ascii "workflow_config" ++ post) ∧
      ascii "workflow_config"
        = [119, 111, 114, 107, 102, 108, 111, 119, 95, 99, 111, 110, 102, 105, 103] ∧
      (isAffectingWorkflowConfig (fixedEnv (ascii "Workflow_Config") []) (ascii "repo")
        (ascii "m.sql")).1 = .ok false :=
  ⟨rfl, isAffectingWorkflowConfig_iff_occurs _ _ _ _ rfl⟩

/-- C2, as stated, fails: in the text `'{a}'{b}'` the quoted payload `{b}`
occurs, but its opening quote is the closing quote of the match `'{a}'`, and
`extractJSON` returns `{a}` alone. -/
theorem extractJSON_misses_shared_quote :
    (fixedEnv (ascii "\x27\x7ba\x7d\x27\x7bb\x7d\x27") []).readFileExtractor
        (ascii "repo" ++ ascii "/" ++ ascii "m.sql")
      = .ok (ascii "\x27\x7ba\x7d\x27\x7bb\x7d\x27") ∧
    quoted (ascii "\x7bb\x7d") <:+: ascii "\x27\x7ba\x7d\x27\x7bb\x7d\x27" ∧
    IsPayload (ascii "\x7bb\x7d") ∧ 2 ≤ (ascii "\x7bb\x7d").length ∧
    (extractJSON (fixedEnv (ascii "\x27\x7ba\x7d\x27\x7bb\x7d\x27") [])
        (ascii "repo") (ascii "m.sql")).1 = .ok [ascii "\x7ba\x7d"] ∧
    ascii "\x7bb\x7d" ∉ [ascii "\x7ba\x7d"] := by
  refine ⟨rfl, by decide, by decide, by decide, rfl, by decide⟩

/-- C2, amended. When a quoted payload `s` occurs in the text, as
`pre ++ 's' ++ post`, one of two cases holds. Either the occurrence is matched:
`extractJSON` returns what it extracts from `pre`, then `s`, then what it
extracts from `post`, so `s` is returned. Or the opening quote of the
occurrence is the closing quote of a match that is returned: `pre` is
`pre1 ++ 's1` for a payload `s1`, and `extractJSON` returns what it extracts
from `pre1`, then `s1`, then what it extracts from the text after the shared
quote. The second case needs a closing brace right before the opening quote,
so without one `s` is returned. -/
theorem extractJSON_complete_or_overlap (env : Env) (rootPath filePath pre s post : GoString)
    (hread : env.readFileExtractor (rootPath ++ ascii "/" ++ filePath)
      = .ok (pre ++ quoted s ++ post))
    (hs : IsPayload s) :
    ∃ out, (extractJSON env rootPath filePath).1 = .ok out ∧
      ((s ∈ out ∧ out = extractFromContent pre ++ s :: extractFromContent post) ∨
        ∃ pre1 s1, pre = pre1 ++ quote :: s1 ∧ IsPayload s1 ∧ s1 ∈ out ∧
          out = extractFromContent pre1 ++ s1 :: extractFromContent (s ++ quote :: post)) ∧
      (pre.getLast? ≠ some rbrace → s ∈ out) := by
  have e : pre ++ quoted s ++ post = pre ++ quote :: (s ++ quote :: post) := by
    simp [quoted]
  have hcases := extractFromContent_occurrence pre.length pre (Nat.le_refl _) s post hs
  rw [← e] at hcases
  have hmain : (s ∈ extractFromContent (pre ++ quoted s ++ post) ∧
        extractFromContent (pre ++ quoted s ++ post)
          = extractFromContent pre ++ s :: extractFromContent post) ∨
      ∃ pre1 s1, pre = pre1 ++ quote :: s1 ∧ IsPayload s1 ∧
        s1 ∈ extractFromContent (pre ++ quoted s ++ post) ∧
        extractFromContent (pre ++ quoted s ++ post)
          = extractFromContent pre1 ++ s1 :: extractFromContent (s ++ quote :: post) := by
    rcases hcases with h | ⟨pre1, s1, hp, hs1, h⟩
    · exact Or.inl ⟨by rw [h]; simp, h⟩
    · exact Or.inr ⟨pre1, s1, hp, hs1, by rw [h]; simp, h⟩
  refine ⟨extractFromContent (pre ++ quoted s ++ post), ?_, hmain, ?_⟩
  · simp only [extractJSON, hread]
  · intro hlast
    rcases hmain with h | ⟨pre1, s1, hp, hs1, _, _⟩
    · exact h.1
    · exfalso
      apply hlast
      obtain ⟨body, hbody, _⟩ := (isPayload_iff s1).1 hs1
      rw [hp, hbody]
      have e2 : pre1 ++ quote :: lbrace :: (body ++ [rbrace])
          = (pre1 ++ quote :: lbrace :: body) ++ [rbrace] := by simp
      rw [e2, List.getLast?_concat]

/-- Witness of the amended C2: the text `'{a}'{b}'{c}'` at its payload `{c}`,
whose opening quote follows the unmatched `{b}`. -/
theorem extractJSON_complete_or_overlap_witness :
    (fixedEnv (ascii "\x27\x7ba\x7d\x27\x7bb\x7d\x27\x7bc\x7d\x27") []).readFileExtractor
        (ascii "repo" ++ ascii "/" ++ ascii "m.sql")
      = .ok (ascii "\x27\x7ba\x7d\x27\x7bb\x7d" ++ quoted (ascii "\x7bc\x7d") ++ []) ∧
    IsPayload (ascii "\x7bc\x7d") ∧
    (extractJSON (fixedEnv (ascii "\x27\x7ba\x7d\x27\x7bb\x7d\x27\x7bc\x7d\x27") [])
        (ascii "repo") (ascii "m.sql")).1 = .ok [ascii "\x7ba\x7d", ascii "\x7bc\x7d"] ∧
    ∃ out, (extractJSON (fixedEnv (ascii "\x27\x7ba\x7d\x27\x7bb\x7d\x27\x7bc\x7d\x27") [])
        (ascii "repo") (ascii "m.sql")).1 = .ok out ∧
      ((ascii "\x7bc\x7d" ∈ out ∧
          out = extractFromContent (ascii "\x27\x7ba\x7d\x27\x7bb\x7d")
            ++ ascii "\x7bc\x7d" :: extractFromContent []) ∨
        ∃ pre1 s1, ascii "\x27\x7ba\x7d\x27\x7bb\x7d" = pre1 ++ quote :: s1 ∧ IsPayload s1 ∧
          s1 ∈ out ∧
          out = extractFromContent pre1
            ++ s1 :: extractFromContent (ascii "\x7bc\x7d" ++ quote :: [])) ∧
      ((ascii "\x27\x7ba\x7d\x27\x7bb\x7d").getLast? ≠ some rbrace → ascii "\x7bc\x7d" ∈ out) :=
  ⟨rfl, by decide, rfl,
    extractJSON_complete_or_overlap _ _ _ (ascii "\x27\x7ba\x7d\x27\x7bb\x7d")
      (ascii "\x7bc\x7d") [] rfl (by decide)⟩

/-- C3. When the text read is `s0 ++ 'j1' ++ s1 ++ ... ++ 'jn' ++ sn`, no
separator has a single quote and every `ji` begins with an opening brace, ends
with a closing brace and has no single quote, `extractJSON` returns exactly
`[j1, ..., jn]`: source order, duplicates kept, quotes stripped, braces kept.
The two texts of the specification give the one and the two payloads they
hold. -/
theorem extractJSON_quotedSeq (env : Env) (rootPath filePath s0 : GoString)
    (parts : List (GoString × GoString))
    (hread : env.readFileExtractor (rootPath ++ ascii "/" ++ filePath)
      = .ok (s0 ++ quotedSeq parts))
    (h0 : quote ∉ s0)
    (hparts : ∀ p ∈ parts, IsPayload p.1 ∧ quote ∉ p.2) :
    (extractJSON env rootPath filePath).1 = .ok (parts.map Prod.fst) ∧
    extractFromContent
        (ascii "UPDATE t SET c = \x27\x7b\x22a\x22:1,\x22b\x22:\x22x\x22\x7d\x27 WHERE id=1;")
      = [ascii "\x7b\x22a\x22:1,\x22b\x22:\x22x\x22\x7d"] ∧
    extractFromContent (ascii "(\x27\x7b\x22x\x22:1\x7d\x27, \x27\x7b\x22y\x22:2\x7d\x27)")
      = [ascii "\x7b\x22x\x22:1\x7d", ascii "\x7b\x22y\x22:2\x7d"] := by
  refine ⟨?_, by decide, by decide⟩
  simp only [extractJSON, hread]
  rw [extractFromContent_skip _ s0 h0, extractFromContent_quotedSeq parts hparts]

/-- Witness of C3: the text
`UPDATE t SET c = '{"a":1,"b":"x"}' WHERE id=1;` of the specification. -/
theorem extractJSON_quotedSeq_witness :
    (fixedEnv
        (ascii "UPDATE t SET c = \x27\x7b\x22a\x22:1,\x22b\x22:\x22x\x22\x7d\x27 WHERE id=1;")
        []).readFileExtractor (ascii "repo" ++ ascii "/" ++ ascii "m.sql")
      = .ok (ascii "UPDATE t SET c = "
          ++ quotedSeq [(ascii "\x7b\x22a\x22:1,\x22b\x22:\x22x\x22\x7d", ascii " WHERE id=1;")]) ∧
    quote ∉ ascii "UPDATE t SET c = " ∧
    (∀ p ∈ [(ascii "\x7b\x22a\x22:1,\x22b\x22:\x22x\x22\x7d", ascii " WHERE id=1;")],
      IsPayload p.1 ∧ quote ∉ p.2) ∧
    (extractJSON
        (fixedEnv
          (ascii "UPDATE t SET c = \x27\x7b\x22a\x22:1,\x22b\x22:\x22x\x22\x7d\x27 WHERE id=1;")
          [])
        (ascii "repo") (ascii "m.sql")).1
      = .ok [ascii "\x7b\x22a\x22:1,\x22b\x22:\x22x\x22\x7d"] :=
  ⟨rfl, by decide, by decide,
    (extractJSON_quotedSeq _ _ _ (ascii "UPDATE t SET c = ")
      [(ascii "\x7b\x22a\x22:1,\x22b\x22:\x22x\x22\x7d", ascii " WHERE id=1;")]
      rfl (by decide) (by decide)).1⟩

/-- C4. After a successful read `extractJSON` returns without error, every
string it returns stands between single quotes somewhere in the text, begins
with an opening brace, ends with a closing brace and has no single quote; so
a text without such a quoted payload gives the empty sequence. -/
theorem extractJSON_sound (env : Env) (rootPath filePath content : GoString)
    (hread : env.readFileExtractor (rootPath ++ ascii "/" ++ filePath) = .ok content) :
    ∃ out, (extractJSON env rootPath filePath).1 = .ok out ∧
      (∀ s ∈ out, (∃ pre post, content = pre ++ quoted s ++ post) ∧
        s.head? = some lbrace ∧ s.getLast? = some rbrace ∧ quote ∉ s) ∧
      ((¬ ∃ s pre post, content = pre ++ quoted s ++ post ∧
          s.head? = some lbrace ∧ s.getLast? = some rbrace ∧ quote ∉ s) → out = []) := by
  have hsound : ∀ s ∈ extractFromContent content,
      (∃ pre post, content = pre ++ quoted s ++ post) ∧
        s.head? = some lbrace ∧ s.getLast? = some rbrace ∧ quote ∉ s := by
    intro s hs
    obtain ⟨hp, pre, post, hc⟩ := extractFromContent_sound content.length content (Nat.le_refl _) s hs
    exact ⟨⟨pre, post, hc.symm⟩, hp⟩
  refine ⟨extractFromContent content, ?_, hsound, ?_⟩
  · simp only [extractJSON, hread]
  · intro hnone
    apply List.eq_nil_iff_forall_not_mem.2
    intro s hs
    obtain ⟨⟨pre, post, hc⟩, hp⟩ := hsound s hs
    exact hnone ⟨s, pre, post, hc, hp⟩

/-- Witness of C4: the text `SELECT 'a' FROM t;`, which has no quoted payload. -/
theorem extractJSON_sound_witness :
    (fixedEnv (ascii "SELECT \x27a\x27 FROM t;") []).readFileExtractor
        (ascii "repo" ++ ascii "/" ++ ascii "m.sql")
      = .ok (ascii "SELECT \x27a\x27 FROM t;") ∧
    ∃ out, (extractJSON (fixedEnv (ascii "SELECT \x27a\x27 FROM t;") [])
        (ascii "repo") (ascii "m.sql")).1 = .ok out ∧
      (∀ s ∈ out, (∃ pre post, ascii "SELECT \x27a\x27 FROM t;" = pre ++ quoted s ++ post) ∧
        s.head? = some lbrace ∧ s.getLast? = some rbrace ∧ quote ∉ s) ∧
      ((¬ ∃ s pre post, ascii "SELECT \x27a\x27 FROM t;" = pre ++ quoted s ++ post ∧
          s.head? = some lbrace ∧ s.getLast? = some rbrace ∧ quote ∉ s) → out = []) :=
  ⟨rfl, extractJSON_sound _ _ _ _ rfl⟩


/-- C5. For a flagged file whose payloads were extracted, the run appends to
the results exactly one `Result` for every payload the parser rejects, in
extraction order, with the file path, the payload unchanged and the parser's
message; a payload the parser accepts adds nothing. The parser is an arbitrary
function. -/
theorem processFile_validates (env : Env) (rootPath file : GoString) (st : State)
    (jsonStrings : List GoString)
    (hflag : (isAffectingWorkflowConfig env rootPath file).1 = .ok true)
    (hext : (extractJSON env rootPath file).1 = .ok jsonStrings) :
    (processFile env rootPath st file).results
      = st.results ++ jsonStrings.filterMap (fun j =>
          (env.fromJSONSource j).map
            (fun msg => { FileName := file, JSONData := j, Error := msg })) ∧
    (∀ (st1 : State) (j : GoString),
      (validateStep env file st1 j).results
        = match env.fromJSONSource j with
          | some msg => st1.results ++ [{ FileName := file, JSONData := j, Error := msg }]
          | none => st1.results) ∧
    (∀ r : Result, r ∈ (mainLoop env rootPath [file]).results ↔
      ∃ j ∈ jsonStrings, ∃ msg, env.fromJSONSource j = some msg ∧
        r = { FileName := file, JSONData := j, Error := msg }) := by
  have hsingle : (mainLoop env rootPath [file]).results
      = jsonStrings.filterMap (fun j =>
          (env.fromJSONSource j).map
            (fun msg => { FileName := file, JSONData := j, Error := msg })) := by
    rw [mainLoop_single, hflag]
    simp only [hext]
  refine ⟨?_, ?_, ?_⟩
  · rw [processFile_eq, hsingle]
  · intro st1 j
    cases h : env.fromJSONSource j with
    | none => simp [validateStep, validateServerlessJSON, h]
    | some msg => simp [validateStep, validateServerlessJSON, h]
  · intro r
    rw [hsingle, List.mem_filterMap]
    constructor
    · rintro ⟨j, hj, hr⟩
      cases h : env.fromJSONSource j with
      | none => simp [h] at hr
      | some msg =>
        simp only [h, Option.map_some', Option.some.injEq] at hr
        exact ⟨j, hj, msg, h, hr.symm⟩
    · rintro ⟨j, hj, msg, hmsg, rfl⟩
      exact ⟨j, hj, by simp [hmsg]⟩

/-- Witness of C5: a file that reads `workflow_config '{a}'` and a parser that
rejects every payload with `invalid`. -/
theorem processFile_validates_witness :
    (isAffectingWorkflowConfig (fixedEnv (ascii "workflow_config \x27\x7ba\x7d\x27") [])
        (ascii "repo") (ascii "m.sql")).1 = .ok true ∧
    (extractJSON (fixedEnv (ascii "workflow_config \x27\x7ba\x7d\x27") [])
        (ascii "repo") (ascii "m.sql")).1 = .ok [ascii "\x7ba\x7d"] ∧
    (processFile (fixedEnv (ascii "workflow_config \x27\x7ba\x7d\x27") []) (ascii "repo")
        { results := [], calls := [] } (ascii "m.sql")).results
      = [{ FileName := ascii "m.sql", JSONData := ascii "\x7ba\x7d", Error := ascii "invalid" }] :=
  ⟨rfl, rfl,
    (processFile_validates (fixedEnv (ascii "workflow_config \x27\x7ba\x7d\x27") []) (ascii "repo")
      (ascii "m.sql") { results := [], calls := [] } [ascii "\x7ba\x7d"] rfl rfl).1⟩

/-- C6. When the read of a file fails, in the detector or (for a file the
detector flagged) in the extractor, the file adds exactly one `Result`, with
its path, an empty payload and the message of the read error; none of its
payloads is handed to the parser; the run goes on, the files before and after
it are processed as they are without it, and `main` ends by saving. -/
theorem processFile_read_failure (env : Env) (rootPath file err : GoString) (st : State)
    (hfail : env.readFileDetector (rootPath ++ ascii "/" ++ file) = .error err ∨
      ∃ content, env.readFileDetector (rootPath ++ ascii "/" ++ file) = .ok content ∧
        ascii "workflow_config" <:+: content ∧
        env.readFileExtractor (rootPath ++ ascii "/" ++ file) = .error err) :
    (processFile env rootPath st file).results
      = st.results ++ [{ FileName := file, JSONData := [], Error := err }] ∧
    (∀ j, Call.validate j ∉ (mainLoop env rootPath [file]).calls) ∧
    (∀ before after : List GoString,
      (mainLoop env rootPath (before ++ file :: after)).results
        = (mainLoop env rootPath before).results
          ++ [{ FileName := file, JSONData := [], Error := err }]
          ++ (mainLoop env rootPath after).results) ∧
    (∀ before after : List GoString,
      (mainLoop env rootPath (before ++ file :: after)).calls
        = (mainLoop env rootPath before).calls ++ (mainLoop env rootPath [file]).calls
          ++ (mainLoop env rootPath after).calls) ∧
    (∀ prog workingBranch baseBranch output : GoString,
      env.execOutput (diffCommand rootPath workingBranch baseBranch) = .ok output →
      file ∈ filterSQLFiles (stringsSplit newline output) →
      ∃ st1, main env [prog, rootPath, workingBranch, baseBranch] = .saved st1 ∧
        { FileName := file, JSONData := [], Error := err } ∈ st1.results) := by
  have hsingle : (mainLoop env rootPath [file]).results
        = [{ FileName := file, JSONData := [], Error := err }] ∧
      ∀ j, Call.validate j ∉ (mainLoop env rootPath [file]).calls := by
    rw [mainLoop_single]
    rcases hfail with h | ⟨content, h1, h2, h3⟩
    · simp only [isAffectingWorkflowConfig, h]
      simp
    · have hc := (stringsContains_iff content _).2 h2
      simp only [isAffectingWorkflowConfig, h1, hc, extractJSON, h3]
      simp
  refine ⟨?_, hsingle.2, ?_, ?_, ?_⟩
  · rw [processFile_eq, hsingle.1]
  · intro before after
    rw [mainLoop_results, mainLoop_results env rootPath before,
      mainLoop_results env rootPath after, List.flatMap_append, List.flatMap_cons, hsingle.1]
    simp
  · intro before after
    rw [mainLoop_calls, mainLoop_calls env rootPath before,
      mainLoop_calls env rootPath after, List.flatMap_append, List.flatMap_cons]
    simp
  · intro prog workingBranch baseBranch output hout hmem
    refine ⟨mainLoop env rootPath (filterSQLFiles (stringsSplit newline output)), ?_, ?_⟩
    · simp only [main, getChangedFiles, hout]
    · rw [mainLoop_results, List.mem_flatMap]
      exact ⟨file, hmem, by rw [hsingle.1]; simp⟩

/-- Witness of C6: the detector cannot read the file; and, in a second file
system, the extractor cannot read a file the detector flagged. -/
theorem processFile_read_failure_witness :
    (detectorFailsEnv.readFileDetector (ascii "repo" ++ ascii "/" ++ ascii "m.sql")
        = .error (ascii "no such file") ∧
      (processFile detectorFailsEnv (ascii "repo") { results := [], calls := [] }
          (ascii "m.sql")).results
        = [{ FileName := ascii "m.sql", JSONData := [], Error := ascii "no such file" }]) ∧
    ((∃ content,
        (extractorFailsEnv (ascii "workflow_config")).readFileDetector
            (ascii "repo" ++ ascii "/" ++ ascii "m.sql") = .ok content ∧
          ascii "workflow_config" <:+: content ∧
          (extractorFailsEnv (ascii "workflow_config")).readFileExtractor
            (ascii "repo" ++ ascii "/" ++ ascii "m.sql") = .error (ascii "permission denied")) ∧
      (processFile (extractorFailsEnv (ascii "workflow_config")) (ascii "repo")
          { results := [], calls := [] } (ascii "m.sql")).results
        = [{ FileName := ascii "m.sql", JSONData := [], Error := ascii "permission denied" }]) :=
  ⟨⟨rfl, (processFile_read_failure detectorFailsEnv (ascii "repo") (ascii "m.sql")
      (ascii "no such file") { results := [], calls := [] } (Or.inl rfl)).1⟩,
   ⟨⟨ascii "workflow_config", rfl, List.infix_refl _, rfl⟩,
    (processFile_read_failure (extractorFailsEnv (ascii "workflow_config")) (ascii "repo")
      (ascii "m.sql") (ascii "permission denied") { results := [], calls := [] }
      (Or.inr ⟨ascii "workflow_config", rfl, List.infix_refl _, rfl⟩)).1⟩⟩


theorem mainLoop_single_results (env : Env) (rootPath file : GoString) :
    (mainLoop env rootPath [file]).results
      = match (isAffectingWorkflowConfig env rootPath file).1 with
        | .error err => [{ FileName := file, JSONData := [], Error := err }]
        | .ok false => []
        | .ok true =>
          match (extractJSON env rootPath file).1 with
          | .error err => [{ FileName := file, JSONData := [], Error := err }]
          | .ok jsonStrings =>
            jsonStrings.filterMap (fun j =>
              (env.fromJSONSource j).map
                (fun msg => { FileName := file, JSONData := j, Error := msg })) := by
  rw [mainLoop_single]
  cases h1 : (isAffectingWorkflowConfig env rootPath file).1 with
  | error e => rfl
  | ok b =>
    cases b with
    | false => rfl
    | true =>
      cases h2 : (extractJSON env rootPath file).1 with
      | error e => rfl
      | ok js => rfl

theorem mainLoop_result_file (env : Env) (rootPath : GoString) (sqlFiles : List GoString) :
    ∀ r ∈ (mainLoop env rootPath sqlFiles).results, r.FileName ∈ sqlFiles := by
  intro r hr
  rw [mainLoop_results, List.mem_flatMap] at hr
  obtain ⟨f, hf, hr⟩ := hr
  have : r.FileName = f := by
    rw [mainLoop_single_results] at hr
    cases h1 : (isAffectingWorkflowConfig env rootPath f).1 with
    | error e =>
      rw [h1] at hr
      simp only [List.mem_singleton] at hr
      rw [hr]
    | ok b =>
      cases b with
      | false =>
        rw [h1] at hr
        simp at hr
      | true =>
        rw [h1] at hr
        cases h2 : (extractJSON env rootPath f).1 with
        | error e =>
          rw [h2] at hr
          simp only [List.mem_singleton] at hr
          rw [hr]
        | ok js =>
          rw [h2] at hr
          simp only [List.mem_filterMap] at hr
          obtain ⟨j, _, hj⟩ := hr
          cases h3 : env.fromJSONSource j with
          | none => simp [h3] at hj
          | some msg =>
            simp only [h3, Option.map_some', Option.some.injEq] at hj
            rw [← hj]
  rw [this]
  exact hf

theorem mainLoop_read_file (env : Env) (rootPath : GoString) (sqlFiles : List GoString)
    (path : GoString) (h : Call.readFile path ∈ (mainLoop env rootPath sqlFiles).calls) :
    ∃ f ∈ sqlFiles, path = rootPath ++ ascii "/" ++ f := by
  rw [mainLoop_calls, List.mem_flatMap] at h
  obtain ⟨f, hf, h⟩ := h
  refine ⟨f, hf, ?_⟩
  rw [mainLoop_single] at h
  cases h1 : (isAffectingWorkflowConfig env rootPath f).1 with
  | error e =>
    rw [h1] at h
    simpa using h
  | ok b =>
    cases b with
    | false =>
      rw [h1] at h
      simpa using h
    | true =>
      rw [h1] at h
      cases h2 : (extractJSON env rootPath f).1 with
      | error e =>
        rw [h2] at h
        simpa using h
      | ok js =>
        rw [h2] at h
        simpa using h

/-- C7. The results of a run over `xs ++ ys` are the results over `xs`
followed by the results over `ys`; the results of a run are the results of its
files, each processed alone, in the order of the files; one file gives the
record of its read error, or one record for every rejected payload in
extraction order; and what a file gives depends only on the reads of that file
and on the parser. -/
theorem mainLoop_results_concat (env : Env) (rootPath : GoString) (xs ys : List GoString) :
    (mainLoop env rootPath (xs ++ ys)).results
      = (mainLoop env rootPath xs).results ++ (mainLoop env rootPath ys).results ∧
    (mainLoop env rootPath xs).results
      = xs.flatMap (fun f => (mainLoop env rootPath [f]).results) ∧
    (∀ file : GoString, (mainLoop env rootPath [file]).results
      = match (isAffectingWorkflowConfig env rootPath file).1 with
        | .error err => [{ FileName := file, JSONData := [], Error := err }]
        | .ok false => []
        | .ok true =>
          match (extractJSON env rootPath file).1 with
          | .error err => [{ FileName := file, JSONData := [], Error := err }]
          | .ok jsonStrings =>
            jsonStrings.filterMap (fun j =>
              (env.fromJSONSource j).map
                (fun msg => { FileName := file, JSONData := j, Error := msg }))) ∧
    (∀ (env2 : Env) (file : GoString),
      env2.readFileDetector (rootPath ++ ascii "/" ++ file)
        = env.readFileDetector (rootPath ++ ascii "/" ++ file) →
      env2.readFileExtractor (rootPath ++ ascii "/" ++ file)
        = env.readFileExtractor (rootPath ++ ascii "/" ++ file) →
      env2.fromJSONSource = env.fromJSONSource →
      (mainLoop env2 rootPath [file]).results = (mainLoop env rootPath [file]).results) := by
  refine ⟨?_, mainLoop_results env rootPath xs, mainLoop_single_results env rootPath, ?_⟩
  · rw [mainLoop_results, mainLoop_results env rootPath xs, mainLoop_results env rootPath ys,
      List.flatMap_append]
  · intro env2 file h1 h2 h3
    rw [mainLoop_single_results, mainLoop_single_results]
    simp only [isAffectingWorkflowConfig, extractJSON, h1, h2, h3]

/-- Witness of C7: two files, the first of which cannot be read by the
extractor, in a file system that answers every read of the detector alike. -/
theorem mainLoop_results_concat_witness :
    (mainLoop (extractorFailsEnv (ascii "workflow_config")) (ascii "repo")
        ([ascii "a.sql"] ++ [ascii "b.sql"])).results
      = (mainLoop (extractorFailsEnv (ascii "workflow_config")) (ascii "repo")
          [ascii "a.sql"]).results
        ++ (mainLoop (extractorFailsEnv (ascii "workflow_config")) (ascii "repo")
          [ascii "b.sql"]).results :=
  (mainLoop_results_concat (extractorFailsEnv (ascii "workflow_config")) (ascii "repo")
    [ascii "a.sql"] [ascii "b.sql"]).1


theorem not_sql_of_txt (p : GoString) (h : ascii ".txt" <:+ p) : ¬ ascii ".sql" <:+ p := by
  intro h2
  have hs : ascii ".sql" <:+ ascii ".txt" :=
    List.suffix_of_suffix_length_le h2 h (by decide)
  have := hs.eq_of_length (by decide)
  exact absurd this (by decide)

theorem filterSQLFiles_without_empty (fileNames : List GoString) :
    filterSQLFiles (fileNames.filter (fun path => path != []))
      = filterSQLFiles fileNames := by
  rw [filterSQLFiles_eq_filter, filterSQLFiles_eq_filter, List.filter_filter]
  apply List.filter_congr
  intro p _
  by_cases hp : p = []
  · subst hp
    decide
  · simp [hp]

theorem nil_not_mem_filterSQLFiles (fileNames : List GoString) :
    [] ∉ filterSQLFiles fileNames := by
  rw [filterSQLFiles_eq_filter, List.mem_filter]
  rintro ⟨_, h⟩
  exact absurd h (by decide)

/-- C10. Splitting the output of the diff tool at the newlines and filtering by
the `.sql` suffix gives the same SQL files as removing the empty entries from
the split first; the split of an empty output and of an output that ends with
a newline does have a last empty entry, but the empty path is no SQL file, is
never read and is the file of no `Result`; the loop, and `main`, end in the
same state either way. -/
theorem filterSQLFiles_split_without_empty (env : Env) (rootPath output : GoString) :
    filterSQLFiles (stringsSplit newline output)
      = filterSQLFiles (changedFilesWithoutEmpty output) ∧
    stringsSplit newline [] = [[]] ∧
    stringsSplit newline (output ++ [newline]) = stringsSplit newline output ++ [[]] ∧
    [] ∉ filterSQLFiles (stringsSplit newline output) ∧
    Call.readFile (rootPath ++ ascii "/" ++ [])
      ∉ (mainLoop env rootPath (filterSQLFiles (stringsSplit newline output))).calls ∧
    (∀ r ∈ (mainLoop env rootPath (filterSQLFiles (stringsSplit newline output))).results,
      r.FileName ≠ []) ∧
    mainLoop env rootPath (filterSQLFiles (stringsSplit newline output))
      = mainLoop env rootPath (filterSQLFiles (changedFilesWithoutEmpty output)) ∧
    (∀ prog workingBranch baseBranch : GoString,
      main env [prog, rootPath, workingBranch, baseBranch]
        = match env.execOutput (diffCommand rootPath workingBranch baseBranch) with
          | .error err => .panic err
          | .ok out => .saved (mainLoop env rootPath (filterSQLFiles (changedFilesWithoutEmpty out)))) := by
  have h : ∀ out, filterSQLFiles (stringsSplit newline out)
      = filterSQLFiles (changedFilesWithoutEmpty out) := fun out =>
    (filterSQLFiles_without_empty (stringsSplit newline out)).symm
  refine ⟨h output, rfl, stringsSplit_append_sep newline output,
    nil_not_mem_filterSQLFiles _, ?_, ?_, by rw [h output], ?_⟩
  · intro hmem
    obtain ⟨f, hf, hpath⟩ := mainLoop_read_file env rootPath _ _ hmem
    have hf0 : f = [] := by
      have := List.append_cancel_left hpath
      exact this.symm
    rw [hf0] at hf
    exact nil_not_mem_filterSQLFiles _ hf
  · intro r hr h0
    have := mainLoop_result_file env rootPath _ r hr
    rw [h0] at this
    exact nil_not_mem_filterSQLFiles _ this
  · intro prog workingBranch baseBranch
    simp only [main, getChangedFiles]
    cases env.execOutput (diffCommand rootPath workingBranch baseBranch) with
    | error e => rfl
    | ok out => simp only [h out]

/-- C9. End to end: `git` lists two changed files, a `.sql` file and a `.txt`
file, in either order; the `.sql` file mentions `workflow_config` and holds
exactly one payload that the parser rejects: either the text has exactly one
quoted payload, or the payloads extracted from it are `before`, `j`, `after`,
where the parser accepts those of `before` and `after`. Then `main` saves
exactly one `Result`, for the `.sql` file with the payload `j` and the
parser's message, and the `.txt` file is never read. -/
theorem main_one_sql_one_txt (env : Env)
    (prog rootPath workingBranch baseBranch sqlFile txtFile output content j msg : GoString)
    (before after : List GoString)
    (hsql : ascii ".sql" <:+ sqlFile) (htxt : ascii ".txt" <:+ txtFile)
    (hnl1 : newline ∉ sqlFile) (hnl2 : newline ∉ txtFile)
    (hout : output = sqlFile ++ newline :: (txtFile ++ [newline]) ∨
      output = txtFile ++ newline :: (sqlFile ++ [newline]))
    (hexec : env.execOutput (diffCommand rootPath workingBranch baseBranch) = .ok output)
    (hdet : env.readFileDetector (rootPath ++ ascii "/" ++ sqlFile) = .ok content)
    (hext : env.readFileExtractor (rootPath ++ ascii "/" ++ sqlFile) = .ok content)
    (hmark : ascii "workflow_config" <:+: content)
    (hone : (before = [] ∧ after = [] ∧ IsPayload j ∧
        ∃ pre post, content = pre ++ quoted j ++ post ∧
          ∀ pre2 j2 post2 : GoString,
            content = pre2 ++ quoted j2 ++ post2 → IsPayload j2 → pre2 = pre) ∨
      extractFromContent content = before ++ j :: after)
    (hacc : ∀ x ∈ before ++ after, env.fromJSONSource x = none)
    (hrej : env.fromJSONSource j = some msg) :
    ∃ st, main env [prog, rootPath, workingBranch, baseBranch] = .saved st ∧
      st.results = [{ FileName := sqlFile, JSONData := j, Error := msg }] ∧
      st.results.length = 1 ∧
      st.calls = [Call.readFile (rootPath ++ ascii "/" ++ sqlFile),
        Call.readFile (rootPath ++ ascii "/" ++ sqlFile)]
        ++ (before ++ j :: after).map Call.validate ∧
      Call.readFile (rootPath ++ ascii "/" ++ txtFile) ∉ st.calls ∧
      (∀ r ∈ st.results, r.FileName ≠ txtFile) := by
  have hne : sqlFile ≠ txtFile := by
    intro e
    rw [e] at hsql
    exact not_sql_of_txt txtFile htxt hsql
  have hfilter : filterSQLFiles (stringsSplit newline output) = [sqlFile] := by
    have hs1 : stringsHasSuffix sqlFile (ascii ".sql") = true := (stringsHasSuffix_iff _ _).2 hsql
    have hs2 : stringsHasSuffix txtFile (ascii ".sql") = false := by
      rw [Bool.eq_false_iff]
      intro h
      exact not_sql_of_txt txtFile htxt ((stringsHasSuffix_iff _ _).1 h)
    have hs3 : stringsHasSuffix [] (ascii ".sql") = false := by decide
    have e1 : ∀ a : GoString, a ++ [newline] = a ++ newline :: [] := fun _ => rfl
    rcases hout with h | h
    · rw [h, stringsSplit_line newline _ sqlFile hnl1, e1, stringsSplit_line newline _ txtFile hnl2,
        filterSQLFiles_eq_filter]
      simp [stringsSplit, hs1, hs2, hs3]
    · rw [h, stringsSplit_line newline _ txtFile hnl2, e1, stringsSplit_line newline _ sqlFile hnl1,
        filterSQLFiles_eq_filter]
      simp [stringsSplit, hs1, hs2, hs3]
  have hextract : extractFromContent content = before ++ j :: after := by
    rcases hone with ⟨hb, ha, hj, pre, post, hc, huniq⟩ | h
    · rw [hb, ha, hc]
      exact extractFromContent_unique pre j post hj
        (fun pre2 j2 post2 h2 => huniq pre2 j2 post2 (hc.trans h2))
    · exact h
  have hresults : (before ++ j :: after).filterMap (fun x =>
      (env.fromJSONSource x).map
        (fun err => ({ FileName := sqlFile, JSONData := x, Error := err } : Result)))
      = [{ FileName := sqlFile, JSONData := j, Error := msg }] := by
    rw [List.filterMap_append, List.filterMap_cons]
    rw [filterMap_eq_nil_of_none _ before (fun x hx => by rw [hacc x (by simp [hx])]; rfl),
      filterMap_eq_nil_of_none _ after (fun x hx => by rw [hacc x (by simp [hx])]; rfl), hrej]
    rfl
  have hloop : mainLoop env rootPath [sqlFile]
      = { results := [{ FileName := sqlFile, JSONData := j, Error := msg }],
          calls := [Call.readFile (rootPath ++ ascii "/" ++ sqlFile),
            Call.readFile (rootPath ++ ascii "/" ++ sqlFile)]
            ++ (before ++ j :: after).map Call.validate } := by
    have hc := (stringsContains_iff content _).2 hmark
    rw [mainLoop_single]
    simp only [isAffectingWorkflowConfig, hdet, hc, extractJSON, hext, hextract, hresults]
  refine ⟨mainLoop env rootPath [sqlFile], ?_, ?_, ?_, ?_, ?_, ?_⟩
  · simp only [main, getChangedFiles, hexec, hfilter]
  · rw [hloop]
  · rw [hloop]
    rfl
  · rw [hloop]
  · rw [hloop]
    intro hmem
    simp only [List.mem_append, List.mem_cons, Call.readFile.injEq, List.mem_singleton,
      List.not_mem_nil, or_false, or_self, List.mem_map, reduceCtorEq, and_false, exists_false]
      at hmem
    exact hne (List.append_cancel_left hmem).symm
  · rw [hloop]
    intro r hr
    simp only [List.mem_singleton] at hr
    rw [hr]
    exact hne

/-- Witness of C10: the output `a.sql` followed by a newline. -/
theorem filterSQLFiles_split_without_empty_witness :
    filterSQLFiles (stringsSplit newline (ascii "a.sql\n"))
      = filterSQLFiles (changedFilesWithoutEmpty (ascii "a.sql\n")) ∧
    stringsSplit newline (ascii "a.sql\n") = [ascii "a.sql", []] ∧
    filterSQLFiles (stringsSplit newline (ascii "a.sql\n")) = [ascii "a.sql"] :=
  ⟨(filterSQLFiles_split_without_empty detectorFailsEnv (ascii "repo") (ascii "a.sql\n")).1,
    by decide, by decide⟩

/-- Witness of C9: `git` lists `m.sql` and `notes.txt`; `m.sql` reads
`UPDATE workflow_config SET c = '{"x":}' WHERE name = 'a';` and the parser
rejects the payload with `invalid`. -/
theorem main_one_sql_one_txt_witness :
    (ascii ".sql" <:+ ascii "m.sql" ∧ ascii ".txt" <:+ ascii "notes.txt" ∧
      newline ∉ ascii "m.sql" ∧ newline ∉ ascii "notes.txt" ∧
      exampleOutput = ascii "m.sql" ++ newline :: (ascii "notes.txt" ++ [newline]) ∧
      (fixedEnv exampleContent exampleOutput).execOutput
          (diffCommand (ascii "repo") (ascii "feature") (ascii "main")) = .ok exampleOutput ∧
      (fixedEnv exampleContent exampleOutput).readFileDetector
          (ascii "repo" ++ ascii "/" ++ ascii "m.sql") = .ok exampleContent ∧
      (fixedEnv exampleContent exampleOutput).readFileExtractor
          (ascii "repo" ++ ascii "/" ++ ascii "m.sql") = .ok exampleContent ∧
      ascii "workflow_config" <:+: exampleContent ∧
      extractFromContent exampleContent = [] ++ ascii "\x7b\x22x\x22:\x7d" :: [] ∧
      (∀ x ∈ ([] : List GoString) ++ [],
        (fixedEnv exampleContent exampleOutput).fromJSONSource x = none) ∧
      (fixedEnv exampleContent exampleOutput).fromJSONSource (ascii "\x7b\x22x\x22:\x7d")
        = some (ascii "invalid")) ∧
    ∃ st, main (fixedEnv exampleContent exampleOutput)
        [ascii "swf-linter", ascii "repo", ascii "feature", ascii "main"] = .saved st ∧
      st.results
        = [{ FileName := ascii "m.sql", JSONData := ascii "\x7b\x22x\x22:\x7d",
             Error := ascii "invalid" }] ∧
      st.results.length = 1 ∧
      st.calls = [Call.readFile (ascii "repo" ++ ascii "/" ++ ascii "m.sql"),
        Call.readFile (ascii "repo" ++ ascii "/" ++ ascii "m.sql")]
        ++ ([] ++ ascii "\x7b\x22x\x22:\x7d" :: []).map Call.validate ∧
      Call.readFile (ascii "repo" ++ ascii "/" ++ ascii "notes.txt") ∉ st.calls ∧
      (∀ r ∈ st.results, r.FileName ≠ ascii "notes.txt") :=
  ⟨⟨by decide, by decide, by decide, by decide, by decide, rfl, rfl, rfl, by decide, by decide,
      by decide, rfl⟩,
    main_one_sql_one_txt (fixedEnv exampleContent exampleOutput) (ascii "swf-linter")
      (ascii "repo") (ascii "feature") (ascii "main") (ascii "m.sql") (ascii "notes.txt")
      exampleOutput exampleContent (ascii "\x7b\x22x\x22:\x7d") (ascii "invalid") [] []
      (by decide) (by decide) (by decide) (by decide) (Or.inl (by decide)) rfl rfl rfl
      (by decide) (Or.inr (by decide)) (by decide) rfl⟩

end SwfLinter
